import Mathlib

/-!
# CSPReconGO: a shallow embedding of `CspReconGo.go`

The program loads a page in a headless browser, records script requests and
CSP-like response headers, scans the headers and every fetched script for
`http(s)://` references and prints the set of references found.

Go strings are embedded as Lean strings, that is as well-formed UTF-8 text,
and scanned as lists of characters.  Every character the two regular
expressions single out is ASCII, so scanning code points and scanning UTF-8
bytes find the same matches.  The Go maps used
as sets (`map[string]bool`, `map[string]struct{}`) are embedded as
`Finset String`.
-/

namespace CspRecon

/-! ## The fragment of Go `regexp` used by the program -/

/-- One element of a compiled pattern: a literal character `c`, an optional
literal `c?`, or a greedy negated class `[^...]+`. -/
inductive Item where
  | chr (c : Char)
  | opt (c : Char)
  | plusNot (excluded : List Char)

/-- Greedy `[^excluded]*` followed by the continuation `k`: take a character
of the class when that leads to a match, give it back otherwise. -/
def star (excluded : List Char) (k : List Char → Option (List Char)) :
    List Char → Option (List Char)
  | [] => k []
  | x :: s =>
    if x ∈ excluded then k (x :: s)
    else match star excluded k s with
      | some m => some (x :: m)
      | none => k (x :: s)

/-- Greedy `[^excluded]+` followed by the continuation `k`. -/
def plus (excluded : List Char) (k : List Char → Option (List Char)) :
    List Char → Option (List Char)
  | [] => none
  | x :: s => if x ∈ excluded then none else (star excluded k s).map (x :: ·)

/-- Leftmost-first match of a pattern anchored at the head of the text: the
match a backtracking engine finds first, which is what Go `regexp` returns.
The result is the matched prefix. -/
def matchHere : List Item → List Char → Option (List Char)
  | [], _ => some []
  | .chr c :: r, s =>
    match s with
    | [] => none
    | x :: t => if x = c then (matchHere r t).map (x :: ·) else none
  | .opt c :: r, s =>
    match s with
    | [] => matchHere r []
    | x :: t =>
      if x = c then
        match matchHere r t with
        | some m => some (x :: m)
        | none => matchHere r (x :: t)
      else matchHere r (x :: t)
  | .plusNot ex :: r, s => plus ex (matchHere r) s

/-- All successive non-overlapping matches with their start positions.
`pos` is the index of the head of the remaining text and `skip` the number of
characters of the previous match still to step over.  Both patterns of the
program consume at least eight characters, so no empty match arises. -/
def findAllFrom (re : List Item) : Nat → Nat → List Char → List (Nat × List Char)
  | _, _, [] => []
  | pos, skip + 1, _ :: s => findAllFrom re (pos + 1) skip s
  | pos, 0, x :: s =>
    match matchHere re (x :: s) with
    | some m => (pos, m) :: findAllFrom re (pos + 1) (m.length - 1) s
    | none => findAllFrom re (pos + 1) 0 s

/-- Go `(*Regexp).FindAllStringIndex(s, -1)`, as (start, match) pairs. -/
def FindAllStringIndex (re : List Item) (s : String) : List (Nat × List Char) :=
  findAllFrom re 0 0 s.toList

/-- Go `(*Regexp).FindAllString(s, -1)`. -/
def FindAllString (re : List Item) (s : String) : List String :=
  (FindAllStringIndex re s).map (fun p => String.mk p.2)

/-- Go `\s` is `[\t\n\f\r ]`. -/
def whitespace : List Char := ['\t', '\n', Char.ofNat 12, '\r', ' ']

/-- The characters excluded by the class `[^\s/"'<>]`. -/
def excludedChars : List Char :=
  whitespace ++ ['/', Char.ofNat 34, Char.ofNat 39, '<', '>']

/-- The literal characters of a string as pattern items. -/
def lits (s : String) : List Item := s.toList.map Item.chr

/-- The pattern `https?://[^\s/"'<>]+`. -/
def domainRegex : List Item :=
  lits "http" ++ (Item.opt 's' :: (lits "://" ++ [Item.plusNot excludedChars]))

/-- The pattern `https?://[^\s/"'<>]+\.js`. -/
def jsURLRegex : List Item :=
  lits "http" ++ (Item.opt 's' :: (lits "://" ++ (Item.plusNot excludedChars :: lits ".js")))

/-! ## The extraction functions -/

/-- The de-duplication loop of `parseDomains`. -/
def parseDomainsLoop : List String → Finset String → List String → List String
  | [], _, domains => domains
  | m :: ms, seen, domains =>
    if m ∈ seen then parseDomainsLoop ms seen domains
    else parseDomainsLoop ms (insert m seen) (domains ++ [m])

/-- The function `parseDomains`. -/
def parseDomains (js : String) : List String :=
  parseDomainsLoop (FindAllString domainRegex js) ∅ []

/-- The function `extractDomainsFromCSP`: the map argument is returned
updated. -/
def extractDomainsFromCSP (csp : String) (domains : Finset String) : Finset String :=
  (FindAllString domainRegex csp).foldl (fun acc m => insert m acc) domains

/-- The function `extractJSURLsFromCSP`. -/
def extractJSURLsFromCSP (cspHeader : String) : List String :=
  FindAllString jsURLRegex cspHeader

/-! ## The network listener -/

/-- Go `strings.ToLower` on the ASCII letters.  No other character lowers to
`c`, `s` or `p`, so the test below is not affected by the restriction. -/
def ToLower (s : String) : String := String.mk (s.toList.map Char.toLower)

/-- Go `strings.Contains`. -/
def Contains (s substr : String) : Bool :=
  s.toList.tails.any (fun t => substr.toList.isPrefixOf t)

/-- The header-name test of the response handler. -/
def isCSPHeader (name : String) : Bool := Contains (ToLower name) "csp"

/-- A header value of type `interface{}`: a string or anything else. -/
inductive HeaderValue where
  | str (v : String)
  | other
  deriving DecidableEq

/-- The constant `network.ResourceTypeScript`. -/
def ResourceTypeScript : String := "Script"

/-- The events delivered to the listener. -/
inductive Event where
  | EventRequestWillBeSent (type : String) (url : String)
  | EventResponseReceived (headers : List (String × HeaderValue))
  | other

/-- The two variables the listener closure writes. -/
structure Observer where
  scriptURLs : List String
  cspHeaders : Finset String

/-- The body of the `range evt.Response.Headers` loop for one header. -/
def recordHeader (cspHeaders : Finset String) (h : String × HeaderValue) : Finset String :=
  if isCSPHeader h.1 then
    match h.2 with
    | .str v => insert v cspHeaders
    | .other => cspHeaders
  else cspHeaders

/-- The callback passed to `chromedp.ListenTarget`. -/
def listen (st : Observer) : Event → Observer
  | .EventRequestWillBeSent type url =>
    if type = ResourceTypeScript then { st with scriptURLs := st.scriptURLs ++ [url] } else st
  | .EventResponseReceived headers =>
    { st with cspHeaders := headers.foldl recordHeader st.cspHeaders }
  | .other => st

/-- The listener run over a finite sequence of events. -/
def observe (st : Observer) (events : List Event) : Observer := events.foldl listen st

/-- The state before any event. -/
def Observer.empty : Observer := ⟨[], ∅⟩

/-! ## Fetching scripts and merging -/

/-- What `http.Get` followed by `ioutil.ReadAll` can produce: a transport
error, or a response with its status code whose body is read or not. -/
inductive GetResult where
  | transportError
  | response (status : Nat) (body : Option String)

/-- The errors `fetchAndParseJS` returns. -/
inductive FetchError where
  | transport
  | read
  deriving DecidableEq

/-- The function `fetchAndParseJS`, over an oracle for the GET. -/
def fetchAndParseJS (get : String → GetResult) (url : String) : Except FetchError (List String) :=
  match get url with
  | .transportError => .error .transport
  | .response _ none => .error .read
  | .response _ (some body) => .ok (parseDomains body)

/-- The loop over `cspHeaders` in `main`: the headers visited in the order
`hs`. -/
def drainCSP (hs : List String) (scriptURLs : List String) (domains : Finset String) :
    List String × Finset String :=
  hs.foldl (fun acc h => (acc.1 ++ extractJSURLsFromCSP h, extractDomainsFromCSP h acc.2))
    (scriptURLs, domains)

/-- The body of one fetch goroutine, run to completion. -/
def fetchTask (get : String → GetResult) (domains : Finset String) (url : String) :
    Finset String :=
  match fetchAndParseJS get url with
  | .ok ds => ds.foldl (fun acc d => insert d acc) domains
  | .error _ => domains

/-- The fetch goroutines run one after another in the order `schedule`. -/
def runFetches (get : String → GetResult) (schedule : List String) (domains : Finset String) :
    Finset String :=
  schedule.foldl (fetchTask get) domains

/-- The part of `main` after navigation: drain the CSP headers in the order
`hs`, then run the fetch tasks in the order chosen by `schedule`. -/
def collect (get : String → GetResult) (hs : List String) (scriptURLs : List String)
    (schedule : List String → List String) : Finset String :=
  let drained := drainCSP hs scriptURLs ∅
  runFetches get (schedule drained.1) drained.2

/-! ## The pattern of the specification, as a direct scan -/

/-- The scheme `https://` or `http://` at the head of the text, with the text
that follows it. -/
def stripScheme (s : List Char) : Option (List Char × List Char) :=
  if "https://".toList.isPrefixOf s then some ("https://".toList, s.drop 8)
  else if "http://".toList.isPrefixOf s then some ("http://".toList, s.drop 7)
  else none

/-- Membership in the negated class `[^excluded]`. -/
def inClass (excluded : List Char) (c : Char) : Bool := decide (c ∉ excluded)

/-- The longest occurrence at the head of the text of a scheme followed by one
or more characters outside `excluded`. -/
def patternAt (excluded : List Char) (s : List Char) : Option (List Char) :=
  match stripScheme s with
  | none => none
  | some (scheme, rest) =>
    let run := rest.takeWhile (inClass excluded)
    if run = [] then none else some (scheme ++ run)

/-- Left-to-right, greedy, non-overlapping scan: report the occurrence at the
current position and resume right after it, or move one character on.  The
fuel `n` bounds the number of positions visited. -/
def scanPattern (excluded : List Char) : Nat → List Char → List (List Char)
  | 0, _ => []
  | _ + 1, [] => []
  | n + 1, x :: s =>
    match patternAt excluded (x :: s) with
    | some m => m :: scanPattern excluded n ((x :: s).drop m.length)
    | none => scanPattern excluded n s

/-- The set of occurrences found by the scan of a whole text. -/
def scanSet (excluded : List Char) (text : String) : Finset String :=
  ((scanPattern excluded text.length text.toList).map String.mk).toFinset

/-- The excluded characters in the words of the specification: whitespace and
the quote and bracket characters. -/
def specExcluded : List Char := whitespace ++ [Char.ofNat 34, Char.ofNat 39, '<', '>']

/-! ## Notions used in the statements -/

/-- The two schemes. -/
def IsScheme (scheme : List Char) : Prop :=
  scheme = "https://".toList ∨ scheme = "http://".toList

/-- No match found in `a ++ b` starts inside `a` and ends inside `b`. -/
def NoSpan (a b : String) : Prop :=
  ∀ p ∈ FindAllStringIndex domainRegex (a ++ b),
    p.1 < a.length → p.1 + p.2.length ≤ a.length

/-- What one URL adds to the domain set: the domains of its body when the
fetch succeeds, nothing otherwise. -/
def contribution (get : String → GetResult) (url : String) : Finset String :=
  match fetchAndParseJS get url with
  | .ok ds => ds.toFinset
  | .error _ => ∅

/-- The URL a request event adds to the script sequence, if any. -/
def scriptRequest : Event → Option String
  | .EventRequestWillBeSent type url => if type = ResourceTypeScript then some url else none
  | _ => none

/-- A response event among `events` carries the string value `v` under a
header name whose lowercased form contains `csp`. -/
def CarriesCSP (events : List Event) (v : String) : Prop :=
  ∃ headers name, Event.EventResponseReceived headers ∈ events ∧
    (name, HeaderValue.str v) ∈ headers ∧ Contains (ToLower name) "csp" = true

/-- Where one fetch goroutine stands: before its GET, inside the loop that
writes `pending` into the shared map, or done. -/
inductive Goroutine where
  | ready (url : String)
  | inserting (pending : List String)
  | finished

/-- The shared map and the goroutines started by the loop over `scriptURLs`.
The program creates no mutex and no channel, so the state has none. -/
structure FetchPhase where
  domains : Finset String
  goroutines : List Goroutine

/-- The state after every goroutine has been started. -/
def FetchPhase.start (domains : Finset String) (scriptURLs : List String) : FetchPhase :=
  ⟨domains, scriptURLs.map Goroutine.ready⟩

/-- Goroutine `i` makes its next move: the GET, one write `domains[d] = ...`,
or leaving the loop. -/
def advance (get : String → GetResult) (w : FetchPhase) (i : Nat) : FetchPhase :=
  match w.goroutines.get? i with
  | some (.ready url) =>
    match fetchAndParseJS get url with
    | .ok ds => ⟨w.domains, w.goroutines.set i (.inserting ds)⟩
    | .error _ => ⟨w.domains, w.goroutines.set i .finished⟩
  | some (.inserting (d :: ds)) => ⟨insert d w.domains, w.goroutines.set i (.inserting ds)⟩
  | some (.inserting []) => ⟨w.domains, w.goroutines.set i .finished⟩
  | _ => w

/-- The goroutines moved in the order the scheduler picks. -/
def interleave (get : String → GetResult) (w : FetchPhase) (choices : List Nat) : FetchPhase :=
  choices.foldl (advance get) w

/-- The next move of the goroutine is a write to the shared map. -/
def aboutToWrite : Goroutine → Bool
  | .inserting (_ :: _) => true
  | _ => false

/-- Two goroutines are about to write to the shared map at the same time. -/
def racing (w : FetchPhase) : Bool := decide (2 ≤ w.goroutines.countP aboutToWrite)

/-- Two scripts that both load, each naming one domain. -/
def twoScripts (url : String) : GetResult :=
  if url = "https://a.example/a.js" then .response 200 (some "x=\x22https://one.example\x22")
  else .response 200 (some "y=\x22https://two.example\x22")

/-- The text `s` written `k` times in a row. -/
def copies (s : String) : Nat → String
  | 0 => ""
  | k + 1 => s ++ copies s k

/-! ## Lemmas on the pattern engine -/

theorem matchHere_chars (cs : List Char) (r : List Item) (s : List Char) :
    matchHere (cs.map Item.chr ++ r) s =
      if cs.isPrefixOf s then (matchHere r (s.drop cs.length)).map (cs ++ ·) else none := by
  induction cs generalizing s with
  | nil => simp
  | cons c cs ih =>
    cases s with
    | nil => simp [matchHere]
    | cons x t =>
      by_cases h : x = c
      · subst h
        simp only [List.map_cons, List.cons_append, matchHere, if_true,
          List.isPrefixOf, beq_self_eq_true, Bool.true_and, List.length_cons, List.drop_succ_cons]
        have e := ih t
        simp only [HAppend.hAppend, Append.append] at e ⊢
        rw [e]
        split <;> simp [Option.map_map, Function.comp_def]
      · have h2 : (c == x) = false := by simp [Ne.symm h]
        simp [matchHere, h, List.isPrefixOf, h2]

theorem star_takeWhile (ex : List Char) (k : List Char → Option (List Char))
    (hk : ∀ s, k s = some []) (s : List Char) :
    star ex k s = some (s.takeWhile (inClass ex)) := by
  induction s with
  | nil => simp [star, hk]
  | cons x t ih =>
    by_cases h : x ∈ ex
    · simp [star, h, hk, List.takeWhile, inClass]
    · simp [star, h, ih, List.takeWhile, inClass]

theorem plus_takeWhile (ex : List Char) (k : List Char → Option (List Char))
    (hk : ∀ s, k s = some []) (s : List Char) :
    plus ex k s =
      if s.takeWhile (inClass ex) = [] then none else some (s.takeWhile (inClass ex)) := by
  cases s with
  | nil => simp [plus]
  | cons x t =>
    by_cases h : x ∈ ex
    · simp [plus, h, List.takeWhile, inClass]
    · simp [plus, h, star_takeWhile ex k hk, List.takeWhile, inClass]

theorem isPrefixOf_append (p q s : List Char) :
    (p ++ q).isPrefixOf s = (p.isPrefixOf s && q.isPrefixOf (s.drop p.length)) := by
  induction p generalizing s with
  | nil => simp
  | cons c p ih =>
    cases s with
    | nil => simp [List.isPrefixOf]
    | cons x t => simp [List.isPrefixOf, ih, Bool.and_assoc]

/-- The part of both patterns after the optional `s`, when nothing follows
the class. -/
theorem matchHere_colon (ex : List Char) (u : List Char) :
    matchHere (lits "://" ++ [Item.plusNot ex]) u =
      if "://".toList.isPrefixOf u then
        (if (u.drop 3).takeWhile (inClass ex) = [] then none
         else some ("://".toList ++ (u.drop 3).takeWhile (inClass ex)))
      else none := by
  rw [lits, matchHere_chars]
  have hk : ∀ s, matchHere [] s = some [] := fun s => by simp [matchHere]
  rw [matchHere, plus_takeWhile ex _ hk, show "://".toList.length = 3 from rfl]
  by_cases hp : "://".toList.isPrefixOf u = true
  · by_cases hr : (u.drop 3).takeWhile (inClass ex) = []
    · simp only [hp, hr, if_true, Option.map]
    · simp only [hp, hr, if_true, if_false, Option.map]
  · simp only [hp, if_false]
    rfl

theorem colon_not_prefix_s (t : List Char) : "://".toList.isPrefixOf ('s' :: t) = false := by
  simp [List.isPrefixOf]

theorem matchHere_domainRegex (s : List Char) :
    matchHere domainRegex s = patternAt excludedChars s := by
  unfold domainRegex
  rw [lits, matchHere_chars]
  have e1 : "https://".toList = "http".toList ++ ("s".toList ++ "://".toList) := by decide
  have e2 : "http://".toList = "http".toList ++ "://".toList := by decide
  unfold patternAt stripScheme
  rw [e1, e2, isPrefixOf_append, isPrefixOf_append, isPrefixOf_append]
  cases h1 : "http".toList.isPrefixOf s with
  | false => simp
  | true =>
    simp only [if_true, Bool.true_and]
    cases ht : s.drop "http".toList.length with
    | nil =>
      simp [matchHere, matchHere_colon, List.isPrefixOf]
    | cons x t =>
      have ht4 : s.drop 4 = x :: t := ht
      have d8 : s.drop 8 = t.drop 3 := by
        have : s.drop 8 = (s.drop 4).drop 4 := by simp [List.drop_drop]
        rw [this, ht4]; rfl
      have d7 : s.drop 7 = (x :: t).drop 3 := by
        have : s.drop 7 = (s.drop 4).drop 3 := by simp [List.drop_drop]
        rw [this, ht4]
      rw [d8, d7]
      by_cases hx : x = 's'
      · subst hx
        have p1 : "s".toList.isPrefixOf ('s' :: t) = true := by simp [List.isPrefixOf]
        have p2 : List.drop "s".toList.length ('s' :: t) = t := rfl
        rw [p1, p2, colon_not_prefix_s, matchHere, if_pos rfl, matchHere_colon, matchHere_colon,
          colon_not_prefix_s]
        by_cases hp : "://".toList.isPrefixOf t = true
        · by_cases hr : (t.drop 3).takeWhile (inClass excludedChars) = []
          · simp only [hp, hr, if_true, Bool.true_and, if_false, Bool.false_eq_true, Option.map]
          · simp only [hp, hr, if_true, Bool.true_and, if_false, Bool.false_eq_true, Option.map]
            rfl
        · simp only [hp, if_false, Bool.true_and, Bool.false_eq_true, Option.map]
      · have p1 : "s".toList.isPrefixOf (x :: t) = false := by
          simp [List.isPrefixOf, Ne.symm hx]
        rw [p1, matchHere, if_neg hx, matchHere_colon]
        by_cases hp : "://".toList.isPrefixOf (x :: t) = true
        · by_cases hr : ((x :: t).drop 3).takeWhile (inClass excludedChars) = []
          · simp only [hp, hr, if_true, Bool.false_and, if_false, Bool.false_eq_true, Option.map]
          · simp only [hp, hr, if_true, Bool.false_and, if_false, Bool.false_eq_true, Option.map]
            rfl
        · simp only [hp, if_false, Bool.false_and, Bool.false_eq_true, Option.map]

/-! ## Lemmas on the scan -/

theorem findAllFrom_skip (re : List Item) (pos skip : Nat) (s : List Char) :
    findAllFrom re pos skip s = findAllFrom re (pos + skip) 0 (s.drop skip) := by
  induction s generalizing pos skip with
  | nil => simp [findAllFrom]
  | cons x t ih =>
    cases skip with
    | zero => rfl
    | succ k =>
      rw [findAllFrom, ih, List.drop_succ_cons]
      congr 1
      omega

theorem stripScheme_length {s scheme rest : List Char}
    (h : stripScheme s = some (scheme, rest)) : 7 ≤ scheme.length := by
  unfold stripScheme at h
  split at h
  · cases h; decide
  · split at h
    · cases h; decide
    · cases h

theorem patternAt_length {ex s m : List Char} (h : patternAt ex s = some m) :
    8 ≤ m.length := by
  unfold patternAt at h
  split at h
  · cases h
  · rename_i scheme rest hs
    have h7 := stripScheme_length hs
    simp only at h
    split at h
    · cases h
    · rename_i hne
      cases h
      have : 0 < (List.takeWhile (inClass ex) rest).length := List.length_pos.mpr hne
      rw [List.length_append]
      omega

theorem findAllFrom_eq_scan (n pos : Nat) (s : List Char) (hn : s.length ≤ n) :
    (findAllFrom domainRegex pos 0 s).map Prod.snd = scanPattern excludedChars n s := by
  induction n using Nat.strong_induction_on generalizing pos s with
  | _ n ih =>
    cases n with
    | zero =>
      have : s = [] := List.length_eq_zero.mp (Nat.le_zero.mp hn)
      subst this
      rfl
    | succ n =>
      cases s with
      | nil => rfl
      | cons x t =>
        have hlen : t.length ≤ n := by simpa using hn
        rw [findAllFrom, scanPattern, matchHere_domainRegex]
        cases hm : patternAt excludedChars (x :: t) with
        | none => exact ih n (Nat.lt_succ_self n) _ _ hlen
        | some m =>
          have h8 := patternAt_length hm
          simp only [List.map_cons]
          rw [findAllFrom_skip]
          have hd : (x :: t).drop m.length = t.drop (m.length - 1) := by
            obtain ⟨k, hk⟩ : ∃ k, m.length = k + 1 := ⟨m.length - 1, by omega⟩
            rw [hk]; rfl
          rw [hd]
          congr 1
          apply ih n (Nat.lt_succ_self n)
          rw [List.length_drop]
          omega

/-! ## The de-duplication loop -/

theorem parseDomainsLoop_spec (ms pre : List String) (seen : Finset String)
    (domains : List String) (hseen : ∀ x, x ∈ seen ↔ x ∈ pre) (hnd : domains.Nodup)
    (hmem : ∀ x, x ∈ domains ↔ x ∈ pre)
    (hord : domains.Pairwise (fun a b => pre.indexOf a < pre.indexOf b)) :
    (parseDomainsLoop ms seen domains).Nodup ∧
    (∀ x, x ∈ parseDomainsLoop ms seen domains ↔ x ∈ pre ++ ms) ∧
    (parseDomainsLoop ms seen domains).Pairwise
      (fun a b => (pre ++ ms).indexOf a < (pre ++ ms).indexOf b) := by
  induction ms generalizing pre seen domains with
  | nil => simpa [parseDomainsLoop] using ⟨hnd, hmem, hord⟩
  | cons m ms ih =>
    have hassoc : pre ++ m :: ms = (pre ++ [m]) ++ ms := by simp
    have hord2 : domains.Pairwise
        (fun a b => (pre ++ [m]).indexOf a < (pre ++ [m]).indexOf b) := by
      refine hord.imp_of_mem ?_
      intro a b ha hb hab
      rw [List.indexOf_append_of_mem ((hmem a).mp ha),
        List.indexOf_append_of_mem ((hmem b).mp hb)]
      exact hab
    rw [parseDomainsLoop, hassoc]
    by_cases hin : m ∈ seen
    · rw [if_pos hin]
      have hpre : m ∈ pre := (hseen m).mp hin
      apply ih (pre ++ [m]) seen domains _ hnd _ hord2
      · intro x
        rw [hseen, List.mem_append, List.mem_singleton]
        constructor
        · exact Or.inl
        · rintro (h | h)
          · exact h
          · exact h ▸ hpre
      · intro x
        rw [hmem, List.mem_append, List.mem_singleton]
        constructor
        · exact Or.inl
        · rintro (h | h)
          · exact h
          · exact h ▸ hpre
    · rw [if_neg hin]
      have hpre : m ∉ pre := fun h => hin ((hseen m).mpr h)
      have hdom : m ∉ domains := fun h => hpre ((hmem m).mp h)
      apply ih (pre ++ [m]) (insert m seen) (domains ++ [m])
      · intro x
        rw [Finset.mem_insert, hseen, List.mem_append, List.mem_singleton]
        tauto
      · rw [List.nodup_append]
        refine ⟨hnd, List.nodup_singleton m, ?_⟩
        intro a ha hb
        rw [List.mem_singleton] at hb
        exact hdom (hb ▸ ha)
      · intro x
        rw [List.mem_append, hmem, List.mem_append]
      · rw [List.pairwise_append]
        refine ⟨hord2, List.pairwise_singleton _ _, ?_⟩
        intro a ha b hb
        rw [List.mem_singleton] at hb
        subst hb
        rw [List.indexOf_append_of_mem ((hmem a).mp ha), List.indexOf_append_of_not_mem hpre]
        have := List.indexOf_lt_length.mpr ((hmem a).mp ha)
        omega

theorem parseDomainsLoop_sublist (ms pre : List String) (seen : Finset String)
    (domains : List String) (h : domains.Sublist pre) :
    (parseDomainsLoop ms seen domains).Sublist (pre ++ ms) := by
  induction ms generalizing pre seen domains with
  | nil => simpa [parseDomainsLoop] using h
  | cons m ms ih =>
    have hassoc : pre ++ m :: ms = (pre ++ [m]) ++ ms := by simp
    rw [parseDomainsLoop, hassoc]
    by_cases hin : m ∈ seen
    · rw [if_pos hin]
      exact ih _ _ _ (h.trans (List.sublist_append_left pre [m]))
    · rw [if_neg hin]
      exact ih _ _ _ (List.Sublist.append h (List.Sublist.refl [m]))

theorem scanPattern_fuel (n : Nat) (s : List Char) (hn : s.length ≤ n) :
    scanPattern excludedChars n s = scanPattern excludedChars s.length s := by
  rw [← findAllFrom_eq_scan n 0 s hn, ← findAllFrom_eq_scan s.length 0 s (Nat.le_refl _)]

theorem parseDomains_facts (js : String) :
    (parseDomains js).Nodup ∧
    (∀ x, x ∈ parseDomains js ↔ x ∈ FindAllString domainRegex js) ∧
    (parseDomains js).Pairwise (fun a b =>
      (FindAllString domainRegex js).indexOf a < (FindAllString domainRegex js).indexOf b) := by
  have h := parseDomainsLoop_spec (FindAllString domainRegex js) [] ∅ []
    (by simp) List.nodup_nil (by simp) List.Pairwise.nil
  simpa [parseDomains] using h

theorem mem_parseDomains (js x : String) :
    x ∈ parseDomains js ↔ x ∈ FindAllString domainRegex js :=
  (parseDomains_facts js).2.1 x

theorem FindAllString_domainRegex (text : String) :
    FindAllString domainRegex text =
      (scanPattern excludedChars text.length text.toList).map String.mk := by
  unfold FindAllString FindAllStringIndex
  rw [← findAllFrom_eq_scan text.length 0 text.toList (Nat.le_refl _), List.map_map]
  rfl

/-! ## The pattern at a position, declaratively -/

theorem stripScheme_iff (s scheme rest : List Char) :
    stripScheme s = some (scheme, rest) ↔ IsScheme scheme ∧ s = scheme ++ rest := by
  unfold stripScheme IsScheme
  constructor
  · intro h
    split at h
    · rename_i hp
      cases h
      refine ⟨Or.inl rfl, ?_⟩
      obtain ⟨t, ht⟩ := List.isPrefixOf_iff_prefix.mp hp
      rw [← ht]
      simp
    · split at h
      · rename_i hp
        cases h
        refine ⟨Or.inr rfl, ?_⟩
        obtain ⟨t, ht⟩ := List.isPrefixOf_iff_prefix.mp hp
        rw [← ht]
        simp
      · cases h
  · rintro ⟨hs | hs, rfl⟩
    · subst hs
      have : "https://".toList.isPrefixOf ("https://".toList ++ rest) = true :=
        List.isPrefixOf_iff_prefix.mpr (List.prefix_append _ _)
      rw [if_pos this]
      simp
    · subst hs
      have h1 : "https://".toList.isPrefixOf ("http://".toList ++ rest) = false := by
        simp [List.isPrefixOf]
      have h2 : "http://".toList.isPrefixOf ("http://".toList ++ rest) = true :=
        List.isPrefixOf_iff_prefix.mpr (List.prefix_append _ _)
      rw [h1, if_neg (by simp), if_pos h2]
      simp

theorem patternAt_iff (ex s m : List Char) :
    patternAt ex s = some m ↔
      ∃ scheme rest, IsScheme scheme ∧ s = scheme ++ rest ∧
        rest.takeWhile (inClass ex) ≠ [] ∧ m = scheme ++ rest.takeWhile (inClass ex) := by
  unfold patternAt
  constructor
  · intro h
    split at h
    · cases h
    · rename_i scheme rest hs
      obtain ⟨h1, h2⟩ := (stripScheme_iff _ _ _).mp hs
      simp only at h
      split at h
      · cases h
      · rename_i hne
        cases h
        exact ⟨scheme, rest, h1, h2, hne, rfl⟩
  · rintro ⟨scheme, rest, h1, h2, hne, rfl⟩
    rw [(stripScheme_iff _ _ _).mpr ⟨h1, h2⟩]
    simp only
    rw [if_neg hne]

theorem takeWhile_append_short (p : Char → Bool) (u b : List Char)
    (h : (List.takeWhile p (u ++ b)).length ≤ u.length) :
    List.takeWhile p (u ++ b) = List.takeWhile p u := by
  induction u with
  | nil =>
    have : (List.takeWhile p b).length = 0 := by simpa using h
    simpa using List.length_eq_zero.mp this
  | cons x t ih =>
    by_cases hx : p x = true
    · simp only [List.cons_append, List.takeWhile_cons, hx, if_true, List.length_cons] at h ⊢
      rw [ih (by omega)]
    · simp [List.takeWhile_cons, hx]

theorem takeWhile_append_ne_nil (p : Char → Bool) (u b : List Char)
    (h : List.takeWhile p u ≠ []) : List.takeWhile p (u ++ b) ≠ [] := by
  cases u with
  | nil => simp at h
  | cons x t =>
    by_cases hx : p x = true
    · simp [List.takeWhile_cons, hx]
    · simp [List.takeWhile_cons, hx] at h

theorem patternAt_append_isSome (ex s b m : List Char) (h : patternAt ex s = some m) :
    ∃ m2, patternAt ex (s ++ b) = some m2 := by
  obtain ⟨scheme, rest, h1, h2, hne, _⟩ := (patternAt_iff _ _ _).mp h
  refine ⟨scheme ++ (rest ++ b).takeWhile (inClass ex), (patternAt_iff _ _ _).mpr ?_⟩
  exact ⟨scheme, rest ++ b, h1, by rw [h2, List.append_assoc],
    takeWhile_append_ne_nil _ _ _ hne, rfl⟩

theorem patternAt_of_append (ex s b m : List Char) (h : patternAt ex (s ++ b) = some m)
    (hl : m.length ≤ s.length) : patternAt ex s = some m := by
  obtain ⟨scheme, rest, h1, h2, hne, hm⟩ := (patternAt_iff _ _ _).mp h
  have hlen : scheme.length + (rest.takeWhile (inClass ex)).length ≤ s.length := by
    rw [← List.length_append, ← hm]; exact hl
  have hpre : scheme <+: s :=
    List.prefix_of_prefix_length_le ⟨rest, h2.symm⟩ (List.prefix_append s b) (by omega)
  obtain ⟨u, hu⟩ := hpre
  subst hu
  have hrest : rest = u ++ b := by
    rw [List.append_assoc] at h2
    exact (List.append_cancel_left h2).symm
  subst hrest
  have hshort : (List.takeWhile (inClass ex) (u ++ b)).length ≤ u.length := by
    rw [List.length_append] at hlen; omega
  have e := takeWhile_append_short _ _ _ hshort
  rw [e] at hne hm
  exact (patternAt_iff _ _ _).mpr ⟨scheme, u, h1, rfl, hne, hm⟩

/-! ## Concatenation of two texts -/

theorem findAllFrom_append (a b : List Char) (pos skip : Nat) (hskip : skip ≤ a.length)
    (h : ∀ p ∈ findAllFrom domainRegex pos skip (a ++ b),
      p.1 < pos + a.length → p.1 + p.2.length ≤ pos + a.length) :
    findAllFrom domainRegex pos skip (a ++ b) =
      findAllFrom domainRegex pos skip a ++ findAllFrom domainRegex (pos + a.length) 0 b := by
  induction a generalizing pos skip with
  | nil =>
    have : skip = 0 := by simpa using hskip
    subst this
    simp [findAllFrom]
  | cons x t ih =>
    have hpos : pos + (x :: t).length = pos + 1 + t.length := by
      rw [List.length_cons]; omega
    rw [hpos] at h ⊢
    cases skip with
    | succ k =>
      rw [List.cons_append, findAllFrom, findAllFrom] at *
      exact ih (pos + 1) k (by simpa using hskip) h
    | zero =>
      rw [List.cons_append, findAllFrom, matchHere_domainRegex] at *
      rw [findAllFrom, matchHere_domainRegex]
      cases hm : patternAt excludedChars (x :: (t ++ b)) with
      | none =>
        rw [hm] at h
        have hn : patternAt excludedChars (x :: t) = none := by
          cases hq : patternAt excludedChars (x :: t) with
          | none => rfl
          | some m =>
            obtain ⟨m2, h2⟩ := patternAt_append_isSome _ _ b _ hq
            rw [List.cons_append, hm] at h2
            cases h2
        rw [hn]
        exact ih (pos + 1) 0 (Nat.zero_le _) h
      | some m =>
        rw [hm] at h
        simp only at h ⊢
        have h8 := patternAt_length hm
        have hle : m.length ≤ (x :: t).length := by
          have := h (pos, m) (List.mem_cons_self _ _) (by simp; omega)
          simp only [List.length_cons] at this ⊢
          omega
        have hq : patternAt excludedChars (x :: t) = some m :=
          patternAt_of_append _ (x :: t) b m hm hle
        rw [hq]
        simp only [List.cons_append]
        congr 1
        apply ih (pos + 1) (m.length - 1)
        · simp only [List.length_cons] at hle; omega
        · intro p hp
          exact h p (List.mem_cons_of_mem _ hp)

theorem mem_findAllFrom (re : List Item) (pos skip : Nat) (s : List Char) (p : Nat × List Char)
    (h : p ∈ findAllFrom re pos skip s) :
    ∃ i, p.1 = pos + i ∧ i < s.length ∧ matchHere re (s.drop i) = some p.2 := by
  induction s generalizing pos skip with
  | nil => simp [findAllFrom] at h
  | cons x t ih =>
    have lift : p ∈ findAllFrom re (pos + 1) 0 t ∨ (∃ k, p ∈ findAllFrom re (pos + 1) k t) →
        ∃ i, p.1 = pos + i ∧ i < (x :: t).length ∧ matchHere re ((x :: t).drop i) = some p.2 := by
      intro hh
      have : ∃ k, p ∈ findAllFrom re (pos + 1) k t := by
        rcases hh with h0 | hk
        · exact ⟨0, h0⟩
        · exact hk
      obtain ⟨k, hk⟩ := this
      obtain ⟨i, h1, h2, h3⟩ := ih (pos + 1) k hk
      exact ⟨i + 1, by omega, by simp; omega, by simpa using h3⟩
    cases skip with
    | succ k =>
      rw [findAllFrom] at h
      exact lift (Or.inr ⟨k, h⟩)
    | zero =>
      rw [findAllFrom] at h
      cases hm : matchHere re (x :: t) with
      | none =>
        rw [hm] at h
        exact lift (Or.inl h)
      | some m =>
        rw [hm] at h
        simp only [List.mem_cons] at h
        rcases h with h | h
        · subst h
          exact ⟨0, by simp, by simp, by simpa using hm⟩
        · exact lift (Or.inr ⟨_, h⟩)

theorem scheme_no_excluded {scheme : List Char} (h : IsScheme scheme) :
    ∀ c ∈ scheme, c ∉ whitespace := by
  rcases h with h | h <;> subst h <;> decide

theorem inClass_not_whitespace {c : Char} (h : inClass excludedChars c = true) :
    c ∉ whitespace := by
  intro hw
  have : c ∈ excludedChars := List.mem_append_left _ hw
  simp [inClass, this] at h

theorem patternAt_facts {s m : List Char} (h : patternAt excludedChars s = some m) :
    m <+: s ∧ ∀ c ∈ m, c ∉ whitespace := by
  obtain ⟨scheme, rest, h1, h2, _, hm⟩ := (patternAt_iff _ _ _).mp h
  subst h2 hm
  refine ⟨(List.prefix_append_right_inj scheme).mpr (List.takeWhile_prefix _), ?_⟩
  intro c hc
  rcases List.mem_append.mp hc with hc | hc
  · exact scheme_no_excluded h1 c hc
  · exact inClass_not_whitespace (List.mem_takeWhile_imp hc)

theorem noSpan_list (a b : List Char)
    (hb : b = [] ∨ ∃ w ∈ whitespace, (∃ t, a = t ++ [w]) ∨ (∃ t, b = w :: t)) :
    ∀ p ∈ findAllFrom domainRegex 0 0 (a ++ b),
      p.1 < a.length → p.1 + p.2.length ≤ a.length := by
  intro p hp hlt
  obtain ⟨i, hi, _, hm⟩ := mem_findAllFrom _ _ _ _ _ hp
  rw [matchHere_domainRegex] at hm
  obtain ⟨hpre, hws⟩ := patternAt_facts hm
  have hi2 : p.1 = i := by omega
  rw [hi2] at hlt ⊢
  rw [List.drop_append_of_le_length (Nat.le_of_lt hlt)] at hpre
  have hdl : (a.drop i).length = a.length - i := List.length_drop i a
  rcases hb with hb | ⟨w, hw, hb | hb⟩
  · subst hb
    have := hpre.length_le
    rw [List.append_nil, hdl] at this
    omega
  · by_contra hcon
    obtain ⟨t, ht⟩ := hb
    subst ht
    have hit : i ≤ t.length := by
      rw [List.length_append] at hlt; simpa using Nat.lt_succ_iff.mp hlt
    rw [List.drop_append_of_le_length hit] at hpre hdl
    have hsub : t.drop i ++ [w] <+: p.2 :=
      List.prefix_of_prefix_length_le (List.prefix_append _ b) hpre (by rw [hdl]; omega)
    exact hws w (hsub.mem (by simp)) hw
  · by_contra hcon
    obtain ⟨t, ht⟩ := hb
    subst ht
    have h1 : a.drop i ++ [w] <+: a.drop i ++ w :: t :=
      (List.prefix_append_right_inj _).mpr ⟨t, rfl⟩
    have hsub : a.drop i ++ [w] <+: p.2 :=
      List.prefix_of_prefix_length_le h1 hpre (by rw [List.length_append, hdl]; simp; omega)
    exact hws w (hsub.mem (by simp)) hw

theorem findAllFrom_shift (re : List Item) (pos d skip : Nat) (s : List Char) :
    findAllFrom re (pos + d) skip s =
      (findAllFrom re pos skip s).map (fun p => (p.1 + d, p.2)) := by
  induction s generalizing pos skip with
  | nil => simp [findAllFrom]
  | cons x t ih =>
    have e : pos + d + 1 = pos + 1 + d := by omega
    cases skip with
    | succ k => rw [findAllFrom, findAllFrom, e, ih]
    | zero =>
      rw [findAllFrom, findAllFrom]
      cases matchHere re (x :: t) with
      | none => simp only; rw [e, ih]
      | some m => simp only [List.map_cons]; rw [e, ih]

theorem findAllFrom_snd (re : List Item) (pos : Nat) (s : List Char) :
    (findAllFrom re pos 0 s).map (fun p => String.mk p.2) =
      (findAllFrom re 0 0 s).map (fun p => String.mk p.2) := by
  have := findAllFrom_shift re 0 pos 0 s
  rw [Nat.zero_add] at this
  rw [this, List.map_map]
  rfl

theorem FindAllString_append (a b : String) (h : NoSpan a b) :
    FindAllString domainRegex (a ++ b) =
      FindAllString domainRegex a ++ FindAllString domainRegex b := by
  have h2 : ∀ p ∈ findAllFrom domainRegex 0 0 (a.toList ++ b.toList),
      p.1 < 0 + a.toList.length → p.1 + p.2.length ≤ 0 + a.toList.length := by
    intro p hp hlt
    rw [Nat.zero_add] at hlt ⊢
    exact h p hp hlt
  have key := findAllFrom_append a.toList b.toList 0 0 (Nat.zero_le _) h2
  unfold FindAllString FindAllStringIndex
  have e : (a ++ b).toList = a.toList ++ b.toList := String.data_append a b
  rw [e, key, List.map_append, findAllFrom_snd _ (0 + a.toList.length)]

/-! ## Merging into the domain set -/

theorem foldl_insert (l : List String) (d : Finset String) :
    l.foldl (fun acc m => insert m acc) d = d ∪ l.toFinset := by
  induction l generalizing d with
  | nil => simp
  | cons x t ih =>
    rw [List.foldl_cons, ih]
    ext y
    simp only [Finset.mem_union, Finset.mem_insert, List.mem_toFinset, List.mem_cons]
    tauto

theorem extractDomainsFromCSP_eq (csp : String) (d : Finset String) :
    extractDomainsFromCSP csp d = d ∪ (parseDomains csp).toFinset := by
  unfold extractDomainsFromCSP
  rw [foldl_insert]
  ext y
  simp only [Finset.mem_union, List.mem_toFinset, mem_parseDomains]

theorem drainCSP_eq (hs : List String) (scriptURLs : List String) (d : Finset String) :
    drainCSP hs scriptURLs d =
      (scriptURLs ++ hs.flatMap extractJSURLsFromCSP,
        d ∪ hs.toFinset.biUnion (fun h => (parseDomains h).toFinset)) := by
  unfold drainCSP
  induction hs generalizing scriptURLs d with
  | nil => simp
  | cons h t ih =>
    rw [List.foldl_cons, ih, extractDomainsFromCSP_eq]
    refine Prod.ext ?_ ?_
    · simp [List.flatMap]
    · ext y
      simp only [Finset.mem_union, Finset.mem_biUnion, List.mem_toFinset, List.mem_cons]
      constructor
      · rintro ((h1 | h1) | ⟨a, ha, hy⟩)
        · exact Or.inl h1
        · exact Or.inr ⟨h, Or.inl rfl, h1⟩
        · exact Or.inr ⟨a, Or.inr ha, hy⟩
      · rintro (h1 | ⟨a, rfl | ha, hy⟩)
        · exact Or.inl (Or.inl h1)
        · exact Or.inl (Or.inr hy)
        · exact Or.inr ⟨a, ha, hy⟩

theorem fetchTask_eq (get : String → GetResult) (d : Finset String) (url : String) :
    fetchTask get d url = d ∪ contribution get url := by
  unfold fetchTask contribution
  cases fetchAndParseJS get url with
  | ok ds => simp only [foldl_insert]
  | error e => simp

theorem runFetches_eq (get : String → GetResult) (sched : List String) (d : Finset String) :
    runFetches get sched d = d ∪ sched.toFinset.biUnion (contribution get) := by
  unfold runFetches
  induction sched generalizing d with
  | nil => simp
  | cons u t ih =>
    rw [List.foldl_cons, ih, fetchTask_eq]
    ext y
    simp only [Finset.mem_union, Finset.mem_biUnion, List.mem_toFinset, List.mem_cons]
    constructor
    · rintro ((h1 | h1) | ⟨a, ha, hy⟩)
      · exact Or.inl h1
      · exact Or.inr ⟨u, Or.inl rfl, h1⟩
      · exact Or.inr ⟨a, Or.inr ha, hy⟩
    · rintro (h1 | ⟨a, rfl | ha, hy⟩)
      · exact Or.inl (Or.inl h1)
      · exact Or.inl (Or.inr hy)
      · exact Or.inr ⟨a, ha, hy⟩

/-! ## The listener over a sequence of events -/

theorem mem_foldl_recordHeader (headers : List (String × HeaderValue)) (c : Finset String)
    (v : String) :
    v ∈ headers.foldl recordHeader c ↔
      v ∈ c ∨ ∃ name, (name, HeaderValue.str v) ∈ headers ∧ isCSPHeader name = true := by
  induction headers generalizing c with
  | nil => simp
  | cons h t ih =>
    rw [List.foldl_cons, ih]
    obtain ⟨n, val⟩ := h
    unfold recordHeader
    by_cases hc : isCSPHeader n = true
    · cases val with
      | str w =>
        simp only [hc, if_true, Finset.mem_insert, List.mem_cons, Prod.mk.injEq,
          HeaderValue.str.injEq]
        constructor
        · rintro ((h1 | h1) | ⟨name, h1, h2⟩)
          · exact Or.inr ⟨n, Or.inl ⟨rfl, h1⟩, hc⟩
          · exact Or.inl h1
          · exact Or.inr ⟨name, Or.inr h1, h2⟩
        · rintro (h1 | ⟨name, ⟨_, h1⟩ | h1, h2⟩)
          · exact Or.inl (Or.inr h1)
          · exact Or.inl (Or.inl h1)
          · exact Or.inr ⟨name, h1, h2⟩
      | other =>
        simp only [hc, if_true, List.mem_cons, Prod.mk.injEq]
        constructor
        · rintro (h1 | ⟨name, h1, h2⟩)
          · exact Or.inl h1
          · exact Or.inr ⟨name, Or.inr h1, h2⟩
        · rintro (h1 | ⟨name, ⟨_, h1⟩ | h1, h2⟩)
          · exact Or.inl h1
          · cases h1
          · exact Or.inr ⟨name, h1, h2⟩
    · simp only [hc, List.mem_cons, Prod.mk.injEq]
      constructor
      · rintro (h1 | ⟨name, h1, h2⟩)
        · exact Or.inl h1
        · exact Or.inr ⟨name, Or.inr h1, h2⟩
      · rintro (h1 | ⟨name, ⟨h0, _⟩ | h1, h2⟩)
        · exact Or.inl h1
        · exact absurd (h0 ▸ h2) hc
        · exact Or.inr ⟨name, h1, h2⟩

theorem observe_spec (events : List Event) (st : Observer) :
    (observe st events).scriptURLs = st.scriptURLs ++ events.filterMap scriptRequest ∧
    ∀ v, v ∈ (observe st events).cspHeaders ↔ v ∈ st.cspHeaders ∨ CarriesCSP events v := by
  unfold observe
  induction events generalizing st with
  | nil => simp [CarriesCSP]
  | cons e t ih =>
    rw [List.foldl_cons]
    obtain ⟨ih1, ih2⟩ := ih (listen st e)
    have hcar : ∀ v, CarriesCSP (e :: t) v ↔
        (∃ headers name, e = Event.EventResponseReceived headers ∧
          (name, HeaderValue.str v) ∈ headers ∧ isCSPHeader name = true) ∨ CarriesCSP t v := by
      intro v
      unfold CarriesCSP isCSPHeader
      constructor
      · rintro ⟨headers, name, hmem, h1, h2⟩
        rcases List.mem_cons.mp hmem with h | h
        · exact Or.inl ⟨headers, name, h.symm, h1, h2⟩
        · exact Or.inr ⟨headers, name, h, h1, h2⟩
      · rintro (⟨headers, name, h, h1, h2⟩ | ⟨headers, name, h, h1, h2⟩)
        · exact ⟨headers, name, h ▸ List.mem_cons_self _ _, h1, h2⟩
        · exact ⟨headers, name, List.mem_cons_of_mem _ h, h1, h2⟩
    constructor
    · rw [ih1]
      cases e with
      | EventRequestWillBeSent type url =>
        by_cases ht : type = ResourceTypeScript
        · simp [listen, scriptRequest, ht]
        · simp [listen, scriptRequest, ht]
      | EventResponseReceived headers => simp [listen, scriptRequest]
      | other => simp [listen, scriptRequest]
    · intro v
      rw [ih2, hcar]
      cases e with
      | EventRequestWillBeSent type url =>
        by_cases ht : type = ResourceTypeScript
        · simp [listen, ht]
        · simp [listen, ht]
      | EventResponseReceived headers =>
        simp only [listen, mem_foldl_recordHeader, Event.EventResponseReceived.injEq]
        constructor
        · rintro ((h1 | ⟨name, h1, h2⟩) | h3)
          · exact Or.inl h1
          · exact Or.inr (Or.inl ⟨headers, name, rfl, h1, h2⟩)
          · exact Or.inr (Or.inr h3)
        · rintro (h1 | ⟨hd, name, rfl, h1, h2⟩ | h3)
          · exact Or.inl (Or.inl h1)
          · exact Or.inl (Or.inr ⟨name, h1, h2⟩)
          · exact Or.inr h3
      | other => simp [listen]

/-! ## The shape of a match of the JavaScript pattern -/

theorem star_sound (ex : List Char) (k : List Char → Option (List Char)) (s m : List Char)
    (h : star ex k s = some m) :
    ∃ run rest m2, s = run ++ rest ∧ (∀ c ∈ run, c ∉ ex) ∧ k rest = some m2 ∧
      m = run ++ m2 := by
  induction s generalizing m with
  | nil => exact ⟨[], [], m, rfl, by simp, by simpa [star] using h, rfl⟩
  | cons x t ih =>
    rw [star] at h
    by_cases hx : x ∈ ex
    · rw [if_pos hx] at h
      exact ⟨[], x :: t, m, rfl, by simp, h, rfl⟩
    · rw [if_neg hx] at h
      cases hs : star ex k t with
      | none =>
        rw [hs] at h
        exact ⟨[], x :: t, m, rfl, by simp, h, rfl⟩
      | some m1 =>
        rw [hs] at h
        cases h
        obtain ⟨run, rest, m2, h1, h2, h3, h4⟩ := ih m1 hs
        refine ⟨x :: run, rest, m2, by rw [h1]; rfl, ?_, h3, by rw [h4]; rfl⟩
        intro c hc
        rcases List.mem_cons.mp hc with hc | hc
        · exact hc ▸ hx
        · exact h2 c hc

theorem plus_sound (ex : List Char) (k : List Char → Option (List Char)) (s m : List Char)
    (h : plus ex k s = some m) :
    ∃ run rest m2, run ≠ [] ∧ s = run ++ rest ∧ (∀ c ∈ run, c ∉ ex) ∧ k rest = some m2 ∧
      m = run ++ m2 := by
  cases s with
  | nil => simp [plus] at h
  | cons x t =>
    rw [plus] at h
    by_cases hx : x ∈ ex
    · rw [if_pos hx] at h
      cases h
    · rw [if_neg hx] at h
      cases hs : star ex k t with
      | none => rw [hs] at h; cases h
      | some m1 =>
        rw [hs] at h
        cases h
        obtain ⟨run, rest, m2, h1, h2, h3, h4⟩ := star_sound ex k t m1 hs
        refine ⟨x :: run, rest, m2, by simp, by rw [h1]; rfl, ?_, h3, by rw [h4]; rfl⟩
        intro c hc
        rcases List.mem_cons.mp hc with hc | hc
        · exact hc ▸ hx
        · exact h2 c hc

theorem matchHere_chars_some (cs : List Char) (r : List Item) (s m : List Char)
    (h : matchHere (cs.map Item.chr ++ r) s = some m) :
    ∃ m2 rest, s = cs ++ rest ∧ matchHere r rest = some m2 ∧ m = cs ++ m2 := by
  rw [matchHere_chars] at h
  split at h
  · rename_i hp
    obtain ⟨t, ht⟩ := List.isPrefixOf_iff_prefix.mp hp
    subst ht
    rw [List.drop_left] at h
    cases hm : matchHere r t with
    | none => rw [hm] at h; cases h
    | some m2 =>
      rw [hm] at h
      cases h
      exact ⟨m2, t, rfl, hm, rfl⟩
  · cases h

theorem matchHere_opt_some (c : Char) (r : List Item) (s m : List Char)
    (h : matchHere (Item.opt c :: r) s = some m) :
    (∃ m2 rest, s = c :: rest ∧ matchHere r rest = some m2 ∧ m = c :: m2) ∨
      matchHere r s = some m := by
  cases s with
  | nil => exact Or.inr (by simpa [matchHere] using h)
  | cons x t =>
    rw [matchHere] at h
    by_cases hx : x = c
    · rw [if_pos hx] at h
      cases hm : matchHere r t with
      | none => rw [hm] at h; exact Or.inr h
      | some m2 =>
        rw [hm] at h
        cases h
        exact Or.inl ⟨m2, t, by rw [hx], hm, by rw [hx]⟩
    · rw [if_neg hx] at h
      exact Or.inr h

theorem matchHere_jsURLRegex (s m : List Char) (h : matchHere jsURLRegex s = some m) :
    ∃ scheme mid, IsScheme scheme ∧ mid ≠ [] ∧ (∀ c ∈ mid, c ∉ excludedChars) ∧
      m = scheme ++ mid ++ ".js".toList := by
  have tail : ∀ u m3, matchHere (lits "://" ++ (Item.plusNot excludedChars :: lits ".js")) u
      = some m3 → ∃ mid, mid ≠ [] ∧ (∀ c ∈ mid, c ∉ excludedChars) ∧
        m3 = "://".toList ++ (mid ++ ".js".toList) := by
    intro u m3 h3
    obtain ⟨m4, rest, _, h4, e4⟩ := matchHere_chars_some _ _ _ _ h3
    rw [matchHere] at h4
    obtain ⟨run, rest2, m5, hne, _, hrun, h5, e5⟩ := plus_sound _ _ _ _ h4
    have h5b : matchHere (".js".toList.map Item.chr ++ []) rest2 = some m5 := by
      rw [List.append_nil]; exact h5
    obtain ⟨m6, rest3, _, h6, e6⟩ := matchHere_chars_some _ _ _ _ h5b
    rw [matchHere] at h6
    cases h6
    refine ⟨run, hne, hrun, ?_⟩
    rw [e4, e5, e6, List.append_nil]
  obtain ⟨m1, rest, _, h1, e1⟩ := matchHere_chars_some _ _ _ _ h
  rcases matchHere_opt_some _ _ _ _ h1 with ⟨m2, rest2, _, h2, e2⟩ | h2
  · obtain ⟨mid, hne, hmid, e3⟩ := tail _ _ h2
    refine ⟨"https://".toList, mid, Or.inl rfl, hne, hmid, ?_⟩
    rw [e1, e2, e3]; rfl
  · obtain ⟨mid, hne, hmid, e3⟩ := tail _ _ h2
    refine ⟨"http://".toList, mid, Or.inr rfl, hne, hmid, ?_⟩
    rw [e1, e3]; rfl

/-! ## Positions of the matches -/

theorem findAllFrom_pos_ge (re : List Item) (pos skip : Nat) (s : List Char)
    (p : Nat × List Char) (h : p ∈ findAllFrom re pos skip s) : pos + skip ≤ p.1 := by
  induction s generalizing pos skip with
  | nil => simp [findAllFrom] at h
  | cons x t ih =>
    cases skip with
    | succ k =>
      rw [findAllFrom] at h
      have := ih _ _ h
      omega
    | zero =>
      rw [findAllFrom] at h
      cases hm : matchHere re (x :: t) with
      | none =>
        rw [hm] at h
        have := ih _ _ h
        omega
      | some m =>
        rw [hm] at h
        rcases List.mem_cons.mp h with h | h
        · subst h; simp
        · have := ih _ _ h
          omega

theorem findAllFrom_pairwise (re : List Item) (pos skip : Nat) (s : List Char) :
    (findAllFrom re pos skip s).Pairwise (fun p q => p.1 + p.2.length ≤ q.1) := by
  induction s generalizing pos skip with
  | nil => simp [findAllFrom]
  | cons x t ih =>
    cases skip with
    | succ k =>
      rw [findAllFrom]
      exact ih _ _
    | zero =>
      rw [findAllFrom]
      cases hm : matchHere re (x :: t) with
      | none => exact ih _ _
      | some m =>
        simp only
        refine List.Pairwise.cons ?_ (ih _ _)
        intro q hq
        have := findAllFrom_pos_ge _ _ _ _ _ hq
        simp only
        omega

theorem matchHere_prefix (re : List Item) (s m : List Char) (h : matchHere re s = some m) :
    m <+: s := by
  induction re generalizing s m with
  | nil =>
    rw [matchHere] at h
    cases h
    exact List.nil_prefix
  | cons it r ih =>
    cases it with
    | chr c =>
      obtain ⟨m2, rest, h1, h2, h3⟩ := matchHere_chars_some [c] r s m h
      rw [h1, h3]
      exact (List.prefix_append_right_inj _).mpr (ih _ _ h2)
    | opt c =>
      rcases matchHere_opt_some c r s m h with ⟨m2, rest, h1, h2, h3⟩ | h2
      · rw [h1, h3]
        exact (List.prefix_append_right_inj [c]).mpr (ih _ _ h2)
      · exact ih _ _ h2
    | plusNot ex =>
      rw [matchHere] at h
      obtain ⟨run, rest, m2, _, h1, _, h2, h3⟩ := plus_sound _ _ _ _ h
      rw [h1, h3]
      exact (List.prefix_append_right_inj _).mpr (ih _ _ h2)

theorem FindAllStringIndex_substring (re : List Item) (s : String) (p : Nat × List Char)
    (h : p ∈ FindAllStringIndex re s) : p.2 <+: s.toList.drop p.1 := by
  obtain ⟨i, h1, _, h3⟩ := mem_findAllFrom _ _ _ _ _ h
  have : p.1 = i := by omega
  rw [this]
  exact matchHere_prefix _ _ _ h3

theorem matchHere_js_unit (rest : List Char) :
    matchHere jsURLRegex ("https://cdn.example.js ".toList ++ rest) =
      some "https://cdn.example.js".toList := by
  rfl

theorem findAll_js_unit (pos : Nat) (rest : List Char) :
    (findAllFrom jsURLRegex pos 0 ("https://cdn.example.js ".toList ++ rest)).map
        (fun p => String.mk p.2) =
      "https://cdn.example.js" :: (findAllFrom jsURLRegex 0 0 rest).map (fun p => String.mk p.2) := by
  have e : "https://cdn.example.js ".toList ++ rest =
      'h' :: ("ttps://cdn.example.js ".toList ++ rest) := rfl
  rw [e, findAllFrom, ← e, matchHere_js_unit]
  simp only [List.map_cons]
  rw [findAllFrom_skip]
  have d : List.drop ("https://cdn.example.js".toList.length - 1)
      ("ttps://cdn.example.js ".toList ++ rest) = ' ' :: rest := rfl
  rw [d, findAllFrom]
  have n : matchHere jsURLRegex (' ' :: rest) = none := rfl
  rw [n]
  simp only
  rw [findAllFrom_snd]
  rfl

theorem extractJSURLs_copies (k : Nat) :
    extractJSURLsFromCSP (copies "https://cdn.example.js " k) =
      List.replicate k "https://cdn.example.js" := by
  induction k with
  | zero => rfl
  | succ k ih =>
    unfold extractJSURLsFromCSP FindAllString FindAllStringIndex at ih ⊢
    have e : (copies "https://cdn.example.js " (k + 1)).toList =
        "https://cdn.example.js ".toList ++ (copies "https://cdn.example.js " k).toList :=
      String.data_append _ _
    rw [e, findAll_js_unit, ih, List.replicate_succ]

/-! ## The claims -/

/-- C1, the code at the names of the claim: the test of the response handler
is false for `Content-Security-Policy`, because its lowercased form has no
three adjacent characters `csp`; it is true for `X-CSP-Report` and `csp` and
false for `Content-Type`.  A response that carries only a
`Content-Security-Policy` header leaves the set of CSP headers empty. -/
theorem C1_isCSPHeader_samples :
    isCSPHeader "Content-Security-Policy" = false ∧
    isCSPHeader "X-CSP-Report" = true ∧
    isCSPHeader "csp" = true ∧
    isCSPHeader "Content-Type" = false ∧
    (observe Observer.empty [Event.EventResponseReceived
      [("Content-Security-Policy", HeaderValue.str "default-src https://cdn.example.com")]]
      ).cspHeaders = ∅ := by
  decide

/-- C2, refuted as stated: for the CSP value of the claim
`extractJSURLsFromCSP` does not return the script URL and
`extractDomainsFromCSP` does not leave the two strings of the claim. -/
theorem C2_counterexample :
    extractJSURLsFromCSP
        "default-src 'self' https://cdn.example.com; script-src https://scripts.example.com/app.js"
      ≠ ["https://scripts.example.com/app.js"] ∧
    extractDomainsFromCSP
        "default-src 'self' https://cdn.example.com; script-src https://scripts.example.com/app.js"
        ∅
      ≠ {"https://cdn.example.com", "https://scripts.example.com/app.js"} := by
  decide

/-- C2, amended: for the CSP value of the claim, `extractDomainsFromCSP`
applied to an empty domain set leaves the set of `https://cdn.example.com;`
(the semicolon is not excluded by the class) and `https://scripts.example.com`
(the match stops at the first `/`). -/
theorem C2_extractDomainsFromCSP_sample :
    extractDomainsFromCSP
        "default-src 'self' https://cdn.example.com; script-src https://scripts.example.com/app.js"
        ∅
      = {"https://cdn.example.com;", "https://scripts.example.com"} := by
  decide

/-- C3, refuted as stated: on a body with the same `fetch` call twice,
`parseDomains` does not return the set found by the scan for the pattern whose
class admits `/`, and does not return `https://api.example.com/v1`. -/
theorem C3_counterexample :
    (parseDomains
        "fetch(\x22https://api.example.com/v1\x22);\nfetch(\x22https://api.example.com/v1\x22);"
      ).toFinset ≠
      scanSet specExcluded
        "fetch(\x22https://api.example.com/v1\x22);\nfetch(\x22https://api.example.com/v1\x22);" ∧
    parseDomains
        "fetch(\x22https://api.example.com/v1\x22);\nfetch(\x22https://api.example.com/v1\x22);"
      ≠ ["https://api.example.com/v1"] := by
  decide

/-- C3, amended: for every text the set of strings returned by `parseDomains`
is the set found by the left-to-right, greedy, non-overlapping scan for
`http://` or `https://` followed by one or more characters none of which is
whitespace, `/`, a double or single quote, `<` or `>` (the scan visits every
position: more fuel than the length of the text changes nothing); on a body
with the same `fetch` call twice it returns the one element
`https://api.example.com`. -/
theorem C3_parseDomains_scan (text : String) :
    (parseDomains text).toFinset = scanSet excludedChars text ∧
    (∀ n, text.length ≤ n →
      scanPattern excludedChars n text.toList =
        scanPattern excludedChars text.length text.toList) ∧
    parseDomains
        "fetch(\x22https://api.example.com/v1\x22);\nfetch(\x22https://api.example.com/v1\x22);"
      = ["https://api.example.com"] := by
  refine ⟨?_, fun n hn => scanPattern_fuel n text.toList hn, by decide⟩
  ext x
  rw [List.mem_toFinset, mem_parseDomains, FindAllString_domainRegex, scanSet, List.mem_toFinset]

/-- C4, refuted as stated: a response with status 404 whose body is read is
not an error; its body is parsed and its domains reach the domain set. -/
theorem C4_counterexample :
    fetchAndParseJS (fun _ => GetResult.response 404 (some "gone, see https://old.example"))
        "https://cdn.example/app.js"
      = Except.ok ["https://old.example"] ∧
    fetchTask (fun _ => GetResult.response 404 (some "gone, see https://old.example")) ∅
        "https://cdn.example/app.js"
      = {"https://old.example"} := by
  constructor
  · rfl
  · decide

/-- C4, amended: `fetchAndParseJS` returns an error when the GET fails in
transport or the body cannot be read, and then the fetch task leaves the
domain set as it was; the status code is not inspected, so for a response of
any status whose body is read the result is the domains parsed from it. -/
theorem C4_fetchAndParseJS (get : String → GetResult) (url : String) :
    (get url = GetResult.transportError →
      fetchAndParseJS get url = Except.error FetchError.transport) ∧
    (∀ status, get url = GetResult.response status none →
      fetchAndParseJS get url = Except.error FetchError.read) ∧
    (∀ status body, get url = GetResult.response status (some body) →
      fetchAndParseJS get url = Except.ok (parseDomains body)) ∧
    (∀ e domains, fetchAndParseJS get url = Except.error e →
      fetchTask get domains url = domains) := by
  refine ⟨?_, ?_, ?_, ?_⟩
  · intro h
    simp [fetchAndParseJS, h]
  · intro status h
    simp [fetchAndParseJS, h]
  · intro status body h
    simp [fetchAndParseJS, h]
  · intro e domains h
    simp [fetchTask, h]

/-- C4 at a transport failure and at a 404 response. -/
theorem C4_fetchAndParseJS_witness :
    fetchAndParseJS (fun _ => GetResult.transportError) "https://cdn.example/app.js"
      = Except.error FetchError.transport ∧
    fetchTask (fun _ => GetResult.transportError) {"https://kept.example"}
        "https://cdn.example/app.js" = {"https://kept.example"} ∧
    fetchAndParseJS (fun _ => GetResult.response 404 (some "gone, see https://old.example"))
        "https://cdn.example/app.js" = Except.ok (parseDomains "gone, see https://old.example") :=
  ⟨(C4_fetchAndParseJS (fun _ => GetResult.transportError) "https://cdn.example/app.js").1 rfl,
   (C4_fetchAndParseJS (fun _ => GetResult.transportError) "https://cdn.example/app.js").2.2.2
      FetchError.transport {"https://kept.example"} rfl,
   (C4_fetchAndParseJS (fun _ => GetResult.response 404 (some "gone, see https://old.example"))
      "https://cdn.example/app.js").2.2.1 404 "gone, see https://old.example" rfl⟩

/-- C5: for every text the list returned by `parseDomains` has no repeated
element, has the members of the raw match list, lists them in the order of
their first occurrence there, is a sublist of the raw match list, and is
empty when there is no match. -/
theorem C5_parseDomains_dedup (text : String) :
    (parseDomains text).Nodup ∧
    (∀ x, x ∈ parseDomains text ↔ x ∈ FindAllString domainRegex text) ∧
    (parseDomains text).Pairwise (fun a b =>
      (FindAllString domainRegex text).indexOf a < (FindAllString domainRegex text).indexOf b) ∧
    (parseDomains text).Sublist (FindAllString domainRegex text) ∧
    (FindAllString domainRegex text = [] → parseDomains text = []) := by
  obtain ⟨h1, h2, h3⟩ := parseDomains_facts text
  have h4 := parseDomainsLoop_sublist (FindAllString domainRegex text) [] ∅ []
    (List.Sublist.refl [])
  refine ⟨h1, h2, h3, by simpa [parseDomains] using h4, ?_⟩
  intro h
  unfold parseDomains
  rw [h]
  rfl

/-- C5 on a text with a repeated match between two others. -/
theorem C5_parseDomains_dedup_witness :
    parseDomains "https://b.example https://a.example https://b.example https://c.example"
      = ["https://b.example", "https://a.example", "https://c.example"] ∧
    parseDomains "no reference here" = [] :=
  ⟨by decide,
   (C5_parseDomains_dedup "no reference here").2.2.2.2 (by decide)⟩

/-- C6: when no match found in `a ++ b` spans the boundary, the raw match
list of `a ++ b` is that of `a` followed by that of `b`, and `parseDomains`
of `a ++ b` contains every element of `parseDomains a` and of
`parseDomains b`.  No match spans the boundary when `a` ends with a
whitespace character, when `b` is empty, or when `b` begins with a whitespace
character. -/
theorem C6_parseDomains_append (a b : String) :
    (NoSpan a b →
      FindAllString domainRegex (a ++ b) =
        FindAllString domainRegex a ++ FindAllString domainRegex b ∧
      ∀ d, d ∈ parseDomains a ∨ d ∈ parseDomains b → d ∈ parseDomains (a ++ b)) ∧
    ((∃ w ∈ whitespace, a.toList.getLast? = some w) → NoSpan a b) ∧
    (b = "" → NoSpan a b) ∧
    ((∃ w ∈ whitespace, b.toList.head? = some w) → NoSpan a b) := by
  have key : ∀ hb, NoSpan a b := fun hb => noSpan_list a.toList b.toList hb
  refine ⟨?_, ?_, ?_, ?_⟩
  · intro h
    have e := FindAllString_append a b h
    refine ⟨e, ?_⟩
    intro d hd
    rw [mem_parseDomains, e, List.mem_append]
    rcases hd with hd | hd
    · exact Or.inl ((mem_parseDomains _ _).mp hd)
    · exact Or.inr ((mem_parseDomains _ _).mp hd)
  · rintro ⟨w, hw, hl⟩
    exact key (Or.inr ⟨w, hw, Or.inl (List.getLast?_eq_some_iff.mp hl)⟩)
  · intro hb
    exact key (Or.inl (by rw [hb]; rfl))
  · rintro ⟨w, hw, hl⟩
    exact key (Or.inr ⟨w, hw, Or.inr (List.head?_eq_some_iff.mp hl)⟩)

/-- C6 at a text that ends with a blank, followed by a text that starts with a
match. -/
theorem C6_parseDomains_append_witness :
    FindAllString domainRegex ("see https://a.example " ++ "https://b.example/x") =
      FindAllString domainRegex "see https://a.example " ++
        FindAllString domainRegex "https://b.example/x" ∧
    ∀ d, d ∈ parseDomains "see https://a.example " ∨ d ∈ parseDomains "https://b.example/x" →
      d ∈ parseDomains ("see https://a.example " ++ "https://b.example/x") :=
  (C6_parseDomains_append "see https://a.example " "https://b.example/x").1
    ((C6_parseDomains_append "see https://a.example " "https://b.example/x").2.1
      ⟨' ', by decide, by decide⟩)

/-- C7: with the fetch tasks run one after another in any order, the final
domain set is the union of the domains parsed from every CSP header value
and of the contributions of every URL of the page script sequence extended
by the script URLs found in the headers.  A URL whose body is read
contributes the domains parsed from it; a URL whose fetch fails contributes
nothing and removes nothing.  The result depends neither on the order in
which the headers are visited nor on the order of the fetches, and it is
empty when there are no headers and no script URLs. -/
theorem C7_collect_union (get : String → GetResult) (hs scriptURLs : List String)
    (schedule : List String → List String) (hsched : ∀ l, (schedule l).Perm l) :
    collect get hs scriptURLs schedule =
      hs.toFinset.biUnion (fun h => (parseDomains h).toFinset) ∪
        (scriptURLs ++ hs.flatMap extractJSURLsFromCSP).toFinset.biUnion (contribution get) ∧
    (∀ u status body, get u = GetResult.response status (some body) →
      contribution get u = (parseDomains body).toFinset) ∧
    (∀ u e, fetchAndParseJS get u = Except.error e →
      contribution get u = ∅ ∧ ∀ d, fetchTask get d u = d) ∧
    (∀ hs2 schedule2, hs2.toFinset = hs.toFinset → (∀ l, (schedule2 l).Perm l) →
      collect get hs2 scriptURLs schedule2 = collect get hs scriptURLs schedule) ∧
    collect get [] [] schedule = ∅ := by
  have main : ∀ (hs1 urls : List String) (sch : List String → List String),
      (∀ l, (sch l).Perm l) →
      collect get hs1 urls sch =
        hs1.toFinset.biUnion (fun h => (parseDomains h).toFinset) ∪
          (urls ++ hs1.flatMap extractJSURLsFromCSP).toFinset.biUnion (contribution get) := by
    intro hs1 urls sch hsch
    unfold collect
    simp only [drainCSP_eq, runFetches_eq, List.toFinset_eq_of_perm _ _ (hsch _),
      Finset.empty_union]
  refine ⟨main hs scriptURLs schedule hsched, ?_, ?_, ?_, ?_⟩
  · intro u status body h
    simp [contribution, fetchAndParseJS, h]
  · intro u e h
    refine ⟨by simp [contribution, h], fun d => by simp [fetchTask, h]⟩
  · intro hs2 schedule2 hset hsch2
    rw [main hs2 scriptURLs schedule2 hsch2, main hs scriptURLs schedule hsched, hset]
    have e : (scriptURLs ++ hs2.flatMap extractJSURLsFromCSP).toFinset =
        (scriptURLs ++ hs.flatMap extractJSURLsFromCSP).toFinset := by
      ext x
      have hm : ∀ a, a ∈ hs2 ↔ a ∈ hs := fun a => by
        rw [← List.mem_toFinset, hset, List.mem_toFinset]
      simp only [List.mem_toFinset, List.mem_append, List.mem_flatMap, hm]
    rw [e]
  · rw [main [] [] schedule hsched]
    simp

/-- C7 at one header, a page script requested twice whose fetch fails and the
fetches run in reverse order. -/
theorem C7_collect_union_witness :
    collect (fun _ => GetResult.transportError) ["script-src https://cdn.example.js"]
        ["https://a.example/a.js", "https://a.example/a.js"] List.reverse =
      ["script-src https://cdn.example.js"].toFinset.biUnion
          (fun h => (parseDomains h).toFinset) ∪
        (["https://a.example/a.js", "https://a.example/a.js"] ++
          ["script-src https://cdn.example.js"].flatMap extractJSURLsFromCSP).toFinset.biUnion
            (contribution (fun _ => GetResult.transportError)) :=
  (C7_collect_union (fun _ => GetResult.transportError) ["script-src https://cdn.example.js"]
    ["https://a.example/a.js", "https://a.example/a.js"] List.reverse
    (fun l => List.reverse_perm l)).1

/-- C8: from the empty state and for every finite sequence of events, the
script-URL sequence is the request URLs of the script requests in delivery
order with duplicates kept, and the CSP-header set holds exactly the string
values carried by a response under a header name whose lowercased form
contains `csp`.  A request event leaves the CSP-header set as it was, a
response event leaves the script-URL sequence as it was, and any other
event, a request of another resource type, or a CSP-named header whose value
is not a string leaves the state unchanged. -/
theorem C8_observer (events : List Event) :
    (observe Observer.empty events).scriptURLs = events.filterMap scriptRequest ∧
    (∀ v, v ∈ (observe Observer.empty events).cspHeaders ↔ CarriesCSP events v) ∧
    (∀ st type url,
      (listen st (Event.EventRequestWillBeSent type url)).cspHeaders = st.cspHeaders) ∧
    (∀ st headers,
      (listen st (Event.EventResponseReceived headers)).scriptURLs = st.scriptURLs) ∧
    (∀ st, listen st Event.other = st) ∧
    (∀ st type url, type ≠ ResourceTypeScript →
      listen st (Event.EventRequestWillBeSent type url) = st) ∧
    (∀ st name, listen st (Event.EventResponseReceived [(name, HeaderValue.other)]) = st) := by
  obtain ⟨h1, h2⟩ := observe_spec events Observer.empty
  refine ⟨by simpa [Observer.empty] using h1, ?_, ?_, ?_, ?_, ?_, ?_⟩
  · intro v
    rw [h2]
    simp [Observer.empty]
  · intro st type url
    by_cases ht : type = ResourceTypeScript
    · simp [listen, ht]
    · simp [listen, ht]
  · intro st headers
    rfl
  · intro st
    rfl
  · intro st type url ht
    simp [listen, ht]
  · intro st name
    cases st
    by_cases hc : isCSPHeader name = true
    · simp [listen, recordHeader, hc]
    · simp [listen, recordHeader, hc]

/-- C8 on a concrete run: two script requests for the same URL, an image
request, and a response with a CSP-named string header, a CSP-named header
that is not a string and a header of another name. -/
theorem C8_observer_witness :
    (observe Observer.empty
      [Event.EventRequestWillBeSent "Script" "https://a.example/a.js",
       Event.EventRequestWillBeSent "Image" "https://a.example/logo.png",
       Event.EventResponseReceived
         [("X-CSP-Report", HeaderValue.str "script-src https://cdn.example.js"),
          ("X-CSP-Nonce", HeaderValue.other),
          ("Content-Type", HeaderValue.str "text/html")],
       Event.EventRequestWillBeSent "Script" "https://a.example/a.js"]).scriptURLs =
      ["https://a.example/a.js", "https://a.example/a.js"] :=
  (C8_observer _).1

/-- C9, the code at two scripts that both load: once each goroutine has done
its GET, both are about to write to the shared map with nothing between
them; run to the end in this model the two writes both land. -/
theorem C9_unsynchronized_writes :
    racing (interleave twoScripts
      (FetchPhase.start ∅ ["https://a.example/a.js", "https://b.example/b.js"]) [0, 1]) = true ∧
    (interleave twoScripts
      (FetchPhase.start ∅ ["https://a.example/a.js", "https://b.example/b.js"])
      [0, 1, 0, 1, 0, 1]).domains = {"https://one.example", "https://two.example"} := by
  decide

/-- C10: every string returned by `extractJSURLsFromCSP` is a scheme
`http://` or `https://`, a non-empty middle and `.js`, with no excluded
character after the scheme, hence with exactly the two `/` of the scheme; in
particular `https://host/dir/app.js` is never returned.  The result lists the
matches one per match, in text order, each the text at its position, with no
de-duplication: a header made of `k` copies of a URL yields `k` copies. -/
theorem C10_extractJSURLsFromCSP (cspHeader : String) :
    (∀ u ∈ extractJSURLsFromCSP cspHeader, ∃ s m : String,
      (s = "http://" ∨ s = "https://") ∧ m ≠ "" ∧ u = s ++ m ++ ".js" ∧
      (∀ c ∈ (m ++ ".js").toList, c ∉ excludedChars) ∧ u.toList.count '/' = 2) ∧
    "https://host/dir/app.js" ∉ extractJSURLsFromCSP cspHeader ∧
    extractJSURLsFromCSP cspHeader =
      (FindAllStringIndex jsURLRegex cspHeader).map (fun p => String.mk p.2) ∧
    (FindAllStringIndex jsURLRegex cspHeader).Pairwise (fun p q => p.1 + p.2.length ≤ q.1) ∧
    (∀ p ∈ FindAllStringIndex jsURLRegex cspHeader, p.2 <+: cspHeader.toList.drop p.1) ∧
    (∀ k, extractJSURLsFromCSP (copies "https://cdn.example.js " k) =
      List.replicate k "https://cdn.example.js") := by
  have shape : ∀ u ∈ extractJSURLsFromCSP cspHeader, ∃ s m : String,
      (s = "http://" ∨ s = "https://") ∧ m ≠ "" ∧ u = s ++ m ++ ".js" ∧
      (∀ c ∈ (m ++ ".js").toList, c ∉ excludedChars) ∧ u.toList.count '/' = 2 := by
    intro u hu
    unfold extractJSURLsFromCSP FindAllString FindAllStringIndex at hu
    obtain ⟨p, hp, rfl⟩ := List.mem_map.mp hu
    obtain ⟨i, _, _, hm⟩ := mem_findAllFrom _ _ _ _ _ hp
    obtain ⟨scheme, mid, hsch, hne, hmid, e⟩ := matchHere_jsURLRegex _ _ hm
    have hjs : ∀ c ∈ mid ++ ".js".toList, c ∉ excludedChars := by
      intro c hc
      rcases List.mem_append.mp hc with hc | hc
      · exact hmid c hc
      · have hlit : ∀ c ∈ ".js".toList, c ∉ excludedChars := by decide
        exact hlit c hc
    have hslash : (mid ++ ".js".toList).count '/' = 0 :=
      List.count_eq_zero.mpr (fun h => hjs '/' h (by decide))
    refine ⟨String.mk scheme, String.mk mid, ?_, ?_, ?_, hjs, ?_⟩
    · rcases hsch with h | h
      · exact Or.inr (by rw [h]; rfl)
      · exact Or.inl (by rw [h]; rfl)
    · intro h
      exact hne (by simpa using congrArg String.toList h)
    · rw [e]
      rfl
    · show List.count '/' p.2 = 2
      rw [e, List.append_assoc, List.count_append, hslash]
      rcases hsch with h | h <;> rw [h] <;> rfl
  refine ⟨shape, ?_, rfl, findAllFrom_pairwise _ _ _ _,
    fun p hp => FindAllStringIndex_substring _ _ p hp, extractJSURLs_copies⟩
  intro hin
  obtain ⟨s, m, _, _, _, _, hcount⟩ := shape _ hin
  revert hcount
  decide

/-- C10 on a header that names the same script URL twice and a script URL
with a path. -/
theorem C10_extractJSURLsFromCSP_witness :
    extractJSURLsFromCSP (copies "https://cdn.example.js " 2) =
      ["https://cdn.example.js", "https://cdn.example.js"] ∧
    "https://host/dir/app.js" ∉
      extractJSURLsFromCSP "script-src https://host/dir/app.js https://cdn.example.js" :=
  ⟨(C10_extractJSURLsFromCSP "").2.2.2.2.2 2,
   (C10_extractJSURLsFromCSP "script-src https://host/dir/app.js https://cdn.example.js").2.1⟩

end CspRecon
